import Mathlib

/-!
Verification development for the PIAS inventory-analysis core
(data_processor.py column resolver and data cleaner, calculations.py
metric engine and aggregators).

Modelling conventions, stated once:

* IEEE-754 double arithmetic is modelled by exact rational arithmetic
  extended with the special values NaN, plus infinity and minus infinity
  (type `NF` below).  Rounding error is abstracted away; propagation of
  the special values (the part the claims depend on) is preserved:
  division of zero by zero is NaN, division of a nonzero value by zero is
  a signed infinity, every arithmetic operation propagates NaN, and an
  ordered comparison involving NaN is false.
* pandas DataFrames are modelled by lists of records holding the
  canonical columns (name, category, supplier, stock, sales, reorder,
  price, turnover).  The column map is modelled by which canonical
  columns are resolved; the model assumes distinct resolved headers map
  to distinct canonical fields, which is how every claim under
  consideration exercises the code.
* Raw cells of numeric columns are a number, a non-numeric text (which
  `pd.to_numeric(errors=coerce)` turns into NaN), or missing; numeric
  strings are modelled as their numeric value directly.  Raw cells of
  text columns are a string or missing; `astype(str)` renders a missing
  cell as the literal string nan.
* `Series.fillna(value, inplace=True)` is modelled as updating the frame
  (the behaviour of the pandas versions this code runs on, with the
  SettingWithCopy warning suppressed by the module).
-/

namespace PIAS

/-- Numeric value of a float64 cell: NaN, plus or minus infinity, or a
finite value modelled as an exact rational. -/
inductive NF where
  | nan : NF
  | inf : NF
  | ninf : NF
  | val (x : ℚ) : NF
deriving DecidableEq

namespace NF

/-- Addition with IEEE special-value behaviour. -/
def add : NF → NF → NF
  | nan, _ => nan
  | _, nan => nan
  | inf, ninf => nan
  | ninf, inf => nan
  | inf, _ => inf
  | _, inf => inf
  | ninf, _ => ninf
  | _, ninf => ninf
  | val x, val y => val (x + y)

/-- Multiplication with IEEE special-value behaviour; zero times an
infinity is NaN. -/
def mul : NF → NF → NF
  | nan, _ => nan
  | _, nan => nan
  | inf, inf => inf
  | inf, ninf => ninf
  | ninf, inf => ninf
  | ninf, ninf => inf
  | inf, val y => if 0 < y then inf else if y < 0 then ninf else nan
  | val x, inf => if 0 < x then inf else if x < 0 then ninf else nan
  | ninf, val y => if 0 < y then ninf else if y < 0 then inf else nan
  | val x, ninf => if 0 < x then ninf else if x < 0 then inf else nan
  | val x, val y => val (x * y)

/-- Division with IEEE special-value behaviour: zero over zero is NaN, a
nonzero finite value over zero is a signed infinity (treating the zero
divisor as positive, signed zeros being abstracted away). -/
def div : NF → NF → NF
  | nan, _ => nan
  | _, nan => nan
  | inf, inf => nan
  | inf, ninf => nan
  | ninf, inf => nan
  | ninf, ninf => nan
  | inf, val y => if y < 0 then ninf else inf
  | ninf, val y => if y < 0 then inf else ninf
  | val _, inf => val 0
  | val _, ninf => val 0
  | val x, val y =>
      if y = 0 then (if x = 0 then nan else if 0 < x then inf else ninf)
      else val (x / y)

/-- IEEE less-or-equal as a Boolean: any comparison involving NaN is
false. -/
def leb : NF → NF → Bool
  | nan, _ => false
  | _, nan => false
  | ninf, _ => true
  | _, ninf => false
  | _, inf => true
  | inf, _ => false
  | val x, val y => decide (x ≤ y)

/-- IEEE strict less-than as a Boolean: any comparison involving NaN is
false. -/
def ltb : NF → NF → Bool
  | nan, _ => false
  | _, nan => false
  | inf, _ => false
  | _, inf => true
  | _, ninf => false
  | ninf, _ => true
  | val x, val y => decide (x < y)

/-- np.minimum: propagates NaN, otherwise the smaller argument. -/
def nmin (a b : NF) : NF :=
  match a, b with
  | nan, _ => nan
  | _, nan => nan
  | _, _ => if leb a b then a else b

/-- np.maximum: propagates NaN, otherwise the larger argument. -/
def nmax (a b : NF) : NF :=
  match a, b with
  | nan, _ => nan
  | _, nan => nan
  | _, _ => if leb a b then b else a

/-- Absolute value. -/
def nfabs : NF → NF
  | nan => nan
  | inf => inf
  | ninf => inf
  | val x => val |x|

/-- NaN test. -/
def isNan : NF → Bool
  | nan => true
  | _ => false

end NF

/-! ## Column Resolver (data_processor.py, DataProcessor.find_column)

Headers and keywords are modelled as lists of characters.  Python string
operations used by the source are modelled directly: lower-casing is
per-character (headers and keywords are ASCII), strip removes whitespace
at both ends, `in` is substring containment, and split on the underscore
yields every segment, empty segments included. -/

/-- Per-character lower-casing of a header or keyword. -/
def lowerChars (s : List Char) : List Char := s.map Char.toLower

/-- Python str.strip: drop whitespace at both ends. -/
def trimChars (s : List Char) : List Char :=
  ((s.dropWhile Char.isWhitespace).reverse.dropWhile Char.isWhitespace).reverse

/-- Does the text start with the pattern. -/
def leadsWith : List Char → List Char → Bool
  | [], _ => true
  | _ :: _, [] => false
  | p :: ps, c :: cs => p = c && leadsWith ps cs

/-- Python `pattern in text`: substring containment (an empty pattern is
contained in everything). -/
def occursIn (p : List Char) (s : List Char) : Bool :=
  match s with
  | [] => p.isEmpty
  | _ :: cs => leadsWith p s || occursIn p cs

/-- Python str.split on the underscore: every segment, empty ones
included. -/
def splitUnd : List Char → List (List Char)
  | [] => [[]]
  | c :: cs =>
      let r := splitUnd cs
      if c = '_' then [] :: r
      else
        match r with
        | [] => [[c]]
        | h :: t => (c :: h) :: t

/-- The score one keyword contributes against a lower-cased, stripped
header: 100 for an exact match, else 50 for substring containment, else
25 when some underscore-delimited token of the keyword occurs in the
header, else 0. -/
def scoreKeyword (colL : List Char) (kw : List Char) : Nat :=
  let kwL := lowerChars kw
  if kwL = colL then 100
  else if occursIn kwL colL then 50
  else if (splitUnd kwL).any (fun t => occursIn t colL) then 25
  else 0

/-- The fixed generic inventory terms that earn a 10-point bonus. -/
def inventoryTerms : List (List Char) :=
  (["qty", "amount", "level", "count", "volume", "units"].map String.toList)

/-- The total score of a header for a field: the sum of the keyword
scores plus the 10-point bonus when the header contains a generic
inventory term. -/
def scoreHeader (keywords : List (List Char)) (col : List Char) : Nat :=
  let colL := trimChars (lowerChars col)
  (keywords.foldl (fun acc kw => acc + scoreKeyword colL kw) 0) +
    (if inventoryTerms.any (fun t => occursIn t colL) then 10 else 0)

/-- DataProcessor.find_column: the source stores each positively-scoring
header in a dict in input order and takes the max by score; Python max
returns the first maximal entry, so this recursion keeps an earlier
header unless a later one scores strictly higher, and yields none when
no header scores above 0. -/
def findColumn (keywords : List (List Char)) : List (List Char) → Option (List Char)
  | [] => none
  | c :: cs =>
      match findColumn keywords cs with
      | none => if 0 < scoreHeader keywords c then some c else none
      | some d =>
          if 0 < scoreHeader keywords c then
            (if scoreHeader keywords c < scoreHeader keywords d then some d else some c)
          else some d

/-- Keyword list for the stock field, from detect_columns. -/
def kwStock : List (List Char) :=
  (["stock", "inventory", "quantity", "qty", "current_stock",
    "on_hand", "available", "balance", "units", "count", "level",
    "current_quantity", "stock_level", "inventory_level"].map String.toList)

/-- Keyword list for the price field, from detect_columns. -/
def kwPrice : List (List Char) :=
  (["price", "cost", "unit_price", "unit_cost", "value", "amount",
    "rate", "price_per_unit", "cost_per_unit", "unit_value"].map String.toList)

/-- C7. For every list of raw headers and every keyword list (hence every
canonical field), the resolver scores headers by summed keyword points
(100 exact, 50 substring, 25 token, per scoreKeyword) plus the 10-point
generic-term bonus, as scoreHeader states; it returns none exactly when
no header scores above 0, and otherwise the first-encountered header of
strictly maximal score: the winner splits the header list so that every
earlier header scores strictly less and every later header scores no
more. -/
theorem claim_C7_column_resolver_argmax (kws : List (List Char))
    (cols : List (List Char)) :
    (findColumn kws cols = none ↔ ∀ c ∈ cols, scoreHeader kws c = 0) ∧
    (∀ c, findColumn kws cols = some c →
      ∃ l1 l2, cols = l1 ++ c :: l2 ∧ 0 < scoreHeader kws c ∧
        (∀ d ∈ l1, scoreHeader kws d < scoreHeader kws c) ∧
        (∀ d ∈ l2, scoreHeader kws d ≤ scoreHeader kws c)) := by
  induction cols with
  | nil => simp [findColumn]
  | cons c cs ih =>
    obtain ⟨ihNone, ihSome⟩ := ih
    cases hfc : findColumn kws cs with
    | none =>
      have hall : ∀ d ∈ cs, scoreHeader kws d = 0 := ihNone.mp hfc
      by_cases hc : 0 < scoreHeader kws c
      · have hres : findColumn kws (c :: cs) = some c := by
          simp only [findColumn, hfc, if_pos hc]
        refine ⟨?_, ?_⟩
        · rw [hres]
          constructor
          · intro h; exact absurd h (Option.some_ne_none c)
          · intro h; exact absurd (h c (List.mem_cons_self c cs)) (by omega)
        · intro c0 h0
          rw [hres] at h0
          injection h0 with h1
          subst h1
          refine ⟨[], cs, rfl, hc, by simp, ?_⟩
          intro d hd; exact (hall d hd).le.trans (Nat.zero_le _)
      · have hc0 : scoreHeader kws c = 0 := by omega
        have hres : findColumn kws (c :: cs) = none := by
          simp only [findColumn, hfc, if_neg hc]
        refine ⟨?_, ?_⟩
        · rw [hres]
          constructor
          · intro _ d hd
            rcases List.mem_cons.mp hd with rfl | hd2
            · exact hc0
            · exact hall d hd2
          · intro _; rfl
        · intro c0 h0
          rw [hres] at h0
          exact absurd h0.symm (Option.some_ne_none c0)
    | some d =>
      obtain ⟨m1, m2, hsplit, hdpos, hm1, hm2⟩ := ihSome d hfc
      have hdmem : d ∈ cs := by
        rw [hsplit]; exact List.mem_append_right _ (List.mem_cons_self d m2)
      by_cases hc : 0 < scoreHeader kws c
      · by_cases hlt : scoreHeader kws c < scoreHeader kws d
        · have hres : findColumn kws (c :: cs) = some d := by
            simp only [findColumn, hfc, if_pos hc, if_pos hlt]
          refine ⟨?_, ?_⟩
          · rw [hres]
            constructor
            · intro h; exact absurd h (Option.some_ne_none d)
            · intro h; exact absurd (h c (List.mem_cons_self c cs)) (by omega)
          · intro c0 h0
            rw [hres] at h0
            injection h0 with h1
            subst h1
            refine ⟨c :: m1, m2, by simp [hsplit], hdpos, ?_, hm2⟩
            intro e he
            rcases List.mem_cons.mp he with rfl | he2
            · exact hlt
            · exact hm1 e he2
        · have hres : findColumn kws (c :: cs) = some c := by
            simp only [findColumn, hfc, if_pos hc, if_neg hlt]
          refine ⟨?_, ?_⟩
          · rw [hres]
            constructor
            · intro h; exact absurd h (Option.some_ne_none c)
            · intro h; exact absurd (h c (List.mem_cons_self c cs)) (by omega)
          · intro c0 h0
            rw [hres] at h0
            injection h0 with h1
            subst h1
            refine ⟨[], cs, rfl, hc, by simp, ?_⟩
            intro e he
            rw [hsplit] at he
            rcases List.mem_append.mp he with he1 | he2
            · exact le_of_lt ((hm1 e he1).trans_le (by omega))
            · rcases List.mem_cons.mp he2 with rfl | he3
              · omega
              · exact (hm2 e he3).trans (by omega)
      · have hres : findColumn kws (c :: cs) = some d := by
          simp only [findColumn, hfc, if_neg hc]
        refine ⟨?_, ?_⟩
        · rw [hres]
          constructor
          · intro h; exact absurd h (Option.some_ne_none d)
          · intro h; exact absurd (h d (List.mem_cons_of_mem c hdmem)) (by omega)
        · intro c0 h0
          rw [hres] at h0
          injection h0 with h1
          subst h1
          refine ⟨c :: m1, m2, by simp [hsplit], hdpos, ?_, hm2⟩
          intro e he
          rcases List.mem_cons.mp he with rfl | he2
          · omega
          · exact hm1 e he2

/-! ## Data Cleaner (data_processor.py, DataProcessor.clean_data)

The table is modelled by its canonical columns: a row holds one cell per
canonical field, and the column map records which canonical fields the
resolver mapped to a header present in the frame (`col_type in
columns_map and columns_map[col_type] in df_clean.columns`). -/

/-- Raw cell of a text column: a string, or missing (NaN). -/
inductive TCell where
  | str (s : String) : TCell
  | tmis : TCell
deriving DecidableEq

/-- Raw cell of a numeric column: a number (numeric strings are modelled
as their value), a non-numeric text, or missing (NaN). -/
inductive NCell where
  | num (x : ℚ) : NCell
  | bad : NCell
  | nmis : NCell
deriving DecidableEq

/-- One row of the working table, by canonical column. -/
structure RRow where
  name : TCell
  category : TCell
  supplier : TCell
  stock : NCell
  sales : NCell
  reorder : NCell
  price : NCell
  turnover : NCell
deriving DecidableEq

/-- Which canonical fields the Column Resolver mapped to a column of the
frame. -/
structure CMap where
  name : Bool
  category : Bool
  supplier : Bool
  stock : Bool
  sales : Bool
  reorder : Bool
  price : Bool
  turnover : Bool
deriving DecidableEq

/-- pd.to_numeric with errors coerce: non-numeric text becomes NaN. -/
def coerceN : NCell → NCell
  | .num x => .num x
  | _ => .nmis

/-- Negative repair for stock and sales: absolute value. -/
def absN : NCell → NCell
  | .num x => .num |x|
  | c => c

/-- Is the numeric cell missing (NaN). -/
def isNm (c : NCell) : Bool := c = NCell.nmis

/-- Is the text cell missing (NaN). -/
def tmisB (c : TCell) : Bool := c = TCell.tmis

/-- The numeric values of a column, missing cells skipped. -/
def numsOf (l : List NCell) : List ℚ :=
  l.filterMap (fun c => match c with | .num x => some x | _ => none)

/-- Sum of a list of rationals. -/
def qSum (l : List ℚ) : ℚ := l.foldr (fun a b => a + b) 0

/-- Mean of a nonempty list of rationals. -/
def meanQ (l : List ℚ) : ℚ := qSum l / (l.length : ℚ)

/-- pandas median of a nonempty list: middle of the sorted values, or
the mean of the two middles for an even count. -/
def medianQ (l : List ℚ) : ℚ :=
  let s := List.insertionSort (fun a b : ℚ => a ≤ b) l
  let n := s.length
  if n % 2 = 1 then s.getD (n / 2) 0
  else ((s.getD (n / 2 - 1) 0) + (s.getD (n / 2) 0)) / 2

/-- Series.mean with skipna: NaN when the column has no numeric value. -/
def meanNF (l : List NCell) : NF :=
  if (numsOf l).isEmpty then NF.nan else NF.val (meanQ (numsOf l))

/-- Fill value for stock (and for price and turnover): column median, or
0 when the whole column is missing. -/
def fillMedian0 (l : List NCell) : NF :=
  let nn := numsOf l
  if nn.isEmpty then NF.val 0 else NF.val (medianQ nn)

/-- Fill value for sales: column mean, or 1 when the whole column is
missing. -/
def fillSales (l : List NCell) : NF :=
  let nn := numsOf l
  if nn.isEmpty then NF.val 1 else NF.val (meanQ nn)

/-- Fill value for reorder: 20 percent of the mean of the already
cleaned stock column when stock is resolved, else the flat default
10. The column argument is read only when stock is resolved. -/
def fillReorder (stockResolved : Bool) (stockCol : List NCell) : NF :=
  if stockResolved then NF.mul (meanNF stockCol) (NF.val (1 / 5)) else NF.val 10

/-- Series.fillna: replaces missing cells by the fill value; a NaN fill
value leaves the cell missing.  The source applies the fill only when
the column has a missing cell, which yields the same column. -/
def fillN (f : NF) (c : NCell) : NCell :=
  match c with
  | .nmis => (match f with | NF.val q => .num q | _ => .nmis)
  | c => c

/-- One text cell cleaned: astype(str) renders missing as the string
nan, then strip, then empty and nan become the placeholder. -/
def cleanTextCell (placeholder : String) (c : TCell) : TCell :=
  let s0 := match c with | .str s => s | .tmis => "nan"
  let s1 := (trimChars s0.toList).asString
  if s1 = "" ∨ s1 = "nan" then .str placeholder else .str s1

/-- The stock column after coercion and negative repair. -/
def stockCoercedOf (rows : List RRow) : List NCell :=
  (rows.map RRow.stock).map (fun c => absN (coerceN c))

/-- The stock fill value: median of the coerced column, or 0. -/
def stockFillOf (rows : List RRow) : NF := fillMedian0 (stockCoercedOf rows)

/-- The stock column after the whole numeric cleaning. -/
def stockCleanOf (rows : List RRow) : List NCell :=
  (stockCoercedOf rows).map (fillN (stockFillOf rows))

/-- The sales column after coercion and negative repair. -/
def salesCoercedOf (rows : List RRow) : List NCell :=
  (rows.map RRow.sales).map (fun c => absN (coerceN c))

/-- The sales fill value: mean of the coerced column, or 1. -/
def salesFillOf (rows : List RRow) : NF := fillSales (salesCoercedOf rows)

/-- The reorder fill value: computed from the cleaned stock column
(stock is processed before reorder in the source's fixed column order),
or the default 10 when stock is unresolved. -/
def reorderFillOf (m : CMap) (rows : List RRow) : NF :=
  fillReorder m.stock (stockCleanOf rows)

/-- The price fill value: median of the coerced price column, or 0. -/
def priceFillOf (rows : List RRow) : NF :=
  fillMedian0 ((rows.map RRow.price).map coerceN)

/-- The turnover fill value: median of the coerced column, or 0. -/
def turnFillOf (rows : List RRow) : NF :=
  fillMedian0 ((rows.map RRow.turnover).map coerceN)

/-- One row cleaned: each resolved numeric column coerced, negative
values repaired for stock and sales, missing values filled by the
field-specific policy; each resolved text column normalised.  The fill
values are the global column statistics above, computed in the source's
column order. -/
def cleanRow (m : CMap) (rows : List RRow) (r : RRow) : RRow :=
  { name := if m.name then cleanTextCell ("Unknown Product") r.name else r.name
    category := if m.category then cleanTextCell ("Uncategorized") r.category else r.category
    supplier := if m.supplier then cleanTextCell ("Unknown Supplier") r.supplier else r.supplier
    stock := if m.stock then fillN (stockFillOf rows) (absN (coerceN r.stock)) else r.stock
    sales := if m.sales then fillN (salesFillOf rows) (absN (coerceN r.sales)) else r.sales
    reorder := if m.reorder then fillN (reorderFillOf m rows) (coerceN r.reorder) else r.reorder
    price := if m.price then fillN (priceFillOf rows) (coerceN r.price) else r.price
    turnover := if m.turnover then fillN (turnFillOf rows) (coerceN r.turnover) else r.turnover }

/-- DataProcessor.clean_data: field-level cleaning, then the row
pruning step, dropna(subset = the mapped columns among name, stock and
sales, how = all), which the source runs on the already-filled frame. -/
def cleanData (m : CMap) (rows : List RRow) : List RRow :=
  let cleaned := rows.map (cleanRow m rows)
  if m.name || m.stock || m.sales then
    cleaned.filter (fun r =>
      !((!m.name || tmisB r.name) && (!m.stock || isNm r.stock) && (!m.sales || isNm r.sales)))
  else cleaned

/-- Filling a missing cell with a finite value yields that number. -/
theorem fillN_val_nmis (q : ℚ) : fillN (NF.val q) NCell.nmis = NCell.num q := rfl

/-- The median-or-zero fill value is always finite. -/
theorem fillMedian0_val (l : List NCell) : ∃ q, fillMedian0 l = NF.val q := by
  unfold fillMedian0
  by_cases h : (numsOf l).isEmpty <;> simp [h]

/-- The mean-or-one fill value is always finite. -/
theorem fillSales_val (l : List NCell) : ∃ q, fillSales l = NF.val q := by
  unfold fillSales
  by_cases h : (numsOf l).isEmpty <;> simp [h]

/-- A cleaned, resolved stock cell is a number. -/
theorem stock_cell_num (rows : List RRow) (c : NCell) :
    ∃ q, fillN (stockFillOf rows) (absN (coerceN c)) = NCell.num q := by
  obtain ⟨q, hq⟩ := fillMedian0_val (stockCoercedOf rows)
  cases c with
  | num x => exact ⟨|x|, rfl⟩
  | bad =>
      refine ⟨q, ?_⟩
      show fillN (stockFillOf rows) NCell.nmis = NCell.num q
      unfold stockFillOf
      rw [hq, fillN_val_nmis]
  | nmis =>
      refine ⟨q, ?_⟩
      show fillN (stockFillOf rows) NCell.nmis = NCell.num q
      unfold stockFillOf
      rw [hq, fillN_val_nmis]

/-- A cleaned, resolved sales cell is a number. -/
theorem sales_cell_num (rows : List RRow) (c : NCell) :
    ∃ q, fillN (salesFillOf rows) (absN (coerceN c)) = NCell.num q := by
  obtain ⟨q, hq⟩ := fillSales_val (salesCoercedOf rows)
  cases c with
  | num x => exact ⟨|x|, rfl⟩
  | bad =>
      refine ⟨q, ?_⟩
      show fillN (salesFillOf rows) NCell.nmis = NCell.num q
      unfold salesFillOf
      rw [hq, fillN_val_nmis]
  | nmis =>
      refine ⟨q, ?_⟩
      show fillN (salesFillOf rows) NCell.nmis = NCell.num q
      unfold salesFillOf
      rw [hq, fillN_val_nmis]

/-- A cleaned text cell is never missing. -/
theorem cleanText_not_mis (p : String) (c : TCell) :
    tmisB (cleanTextCell p c) = false := by
  unfold cleanTextCell tmisB
  split
  all_goals
    dsimp only
    split <;> simp

/-- The name field of a cleaned row. -/
theorem cleanRow_name (m : CMap) (rows : List RRow) (r : RRow) :
    (cleanRow m rows r).name =
      if m.name then cleanTextCell ("Unknown Product") r.name else r.name := rfl

/-- The stock field of a cleaned row. -/
theorem cleanRow_stock (m : CMap) (rows : List RRow) (r : RRow) :
    (cleanRow m rows r).stock =
      if m.stock then fillN (stockFillOf rows) (absN (coerceN r.stock)) else r.stock := rfl

/-- The sales field of a cleaned row. -/
theorem cleanRow_sales (m : CMap) (rows : List RRow) (r : RRow) :
    (cleanRow m rows r).sales =
      if m.sales then fillN (salesFillOf rows) (absN (coerceN r.sales)) else r.sales := rfl

/-- The reorder field of a cleaned row. -/
theorem cleanRow_reorder (m : CMap) (rows : List RRow) (r : RRow) :
    (cleanRow m rows r).reorder =
      if m.reorder then fillN (reorderFillOf m rows) (coerceN r.reorder) else r.reorder := rfl

/-- The pruning predicate never fires: after field-level cleaning a
resolved name cell is a string and resolved stock and sales cells are
numbers, so no row has every mapped critical cell missing. -/
theorem cleanData_eq_map (m : CMap) (rows : List RRow) :
    cleanData m rows = rows.map (cleanRow m rows) := by
  unfold cleanData
  by_cases hcrit : (m.name || m.stock || m.sales) = true
  · rw [if_pos hcrit]
    apply List.filter_eq_self.mpr
    intro r hr
    obtain ⟨r0, _, rfl⟩ := List.mem_map.mp hr
    cases hn : m.name with
    | true =>
        have hnm : tmisB (cleanRow m rows r0).name = false := by
          rw [cleanRow_name, if_pos hn]
          exact cleanText_not_mis _ _
        simp [hn, hnm]
    | false =>
      cases hs : m.stock with
      | true =>
          obtain ⟨q, hq⟩ := stock_cell_num rows r0.stock
          have hnm : isNm (cleanRow m rows r0).stock = false := by
            rw [cleanRow_stock, if_pos hs, hq]
            simp [isNm]
          simp [hn, hs, hnm]
      | false =>
        have hsl : m.sales = true := by
          cases hsl2 : m.sales with
          | true => rfl
          | false => rw [hn, hs, hsl2] at hcrit; simp at hcrit
        obtain ⟨q, hq⟩ := sales_cell_num rows r0.sales
        have hnm : isNm (cleanRow m rows r0).sales = false := by
          rw [cleanRow_sales, if_pos hsl, hq]
          simp [isNm]
        simp [hn, hs, hsl, hnm]
  · rw [if_neg hcrit]

/-- A column whose cells are all numbers keeps its full length under
numsOf. -/
theorem numsOf_length_eq (l : List NCell) (h : ∀ c ∈ l, ∃ q, c = NCell.num q) :
    (numsOf l).length = l.length := by
  induction l with
  | nil => rfl
  | cons c cs ih =>
      obtain ⟨q, rfl⟩ := h c (List.mem_cons_self c cs)
      simp only [numsOf, List.filterMap_cons] at ih ⊢
      simp only [List.length_cons]
      rw [ih (fun c hc => h c (List.mem_cons_of_mem _ hc))]

/-- Every cell of the cleaned stock column is a number. -/
theorem stockClean_all_num (rows : List RRow) :
    ∀ c ∈ stockCleanOf rows, ∃ q, c = NCell.num q := by
  intro c hc
  unfold stockCleanOf stockCoercedOf at hc
  rw [List.map_map, List.map_map] at hc
  obtain ⟨r, _, rfl⟩ := List.mem_map.mp hc
  obtain ⟨q, hq⟩ := stock_cell_num rows r.stock
  exact ⟨q, hq⟩

/-- With stock resolved, the cleaned frame's stock column is the cleaned
stock column. -/
theorem cleanData_stock_col (m : CMap) (rows : List RRow) (hst : m.stock = true) :
    (cleanData m rows).map RRow.stock = stockCleanOf rows := by
  rw [cleanData_eq_map, List.map_map]
  unfold stockCleanOf stockCoercedOf
  rw [List.map_map, List.map_map]
  apply List.map_congr_left
  intro r _
  show (cleanRow m rows r).stock = fillN (stockFillOf rows) (absN (coerceN r.stock))
  rw [cleanRow_stock, if_pos hst]

/-- C9 helper row used as a getD default. -/
def rrDflt : RRow :=
  { name := TCell.tmis, category := TCell.tmis, supplier := TCell.tmis,
    stock := NCell.nmis, sales := NCell.nmis, reorder := NCell.nmis,
    price := NCell.nmis, turnover := NCell.nmis }

/-- C9. The cleaner processes the numeric columns in the fixed order
stock, sales, reorder, price, turnover; when stock and reorder are both
resolved, a reorder cell that is missing after coercion is filled with
one fifth of the mean of the stock column as it stands in the cleaned
frame (coerced, negatives repaired, missing stock median-filled), and
that cleaned stock column consists entirely of numbers, so the mean
ranges over every row. -/
theorem claim_C9_reorder_fill_from_cleaned_stock (m : CMap) (rows : List RRow)
    (i : ℕ) (hi : i < rows.length) (hst : m.stock = true) (hre : m.reorder = true)
    (hmiss : coerceN ((rows.getD i rrDflt).reorder) = NCell.nmis) :
    ((cleanData m rows).map RRow.reorder).getD i NCell.nmis =
      NCell.num (meanQ (numsOf ((cleanData m rows).map RRow.stock)) * (1 / 5)) ∧
    (numsOf ((cleanData m rows).map RRow.stock)).length = rows.length := by
  have hscol := cleanData_stock_col m rows hst
  rw [hscol]
  have hcl : (stockCleanOf rows).length = rows.length := by
    unfold stockCleanOf stockCoercedOf
    simp
  have hlen2 : (numsOf (stockCleanOf rows)).length = rows.length := by
    rw [numsOf_length_eq _ (stockClean_all_num rows), hcl]
  refine ⟨?_, hlen2⟩
  have hnume : (numsOf (stockCleanOf rows)).isEmpty = false := by
    cases hn2 : numsOf (stockCleanOf rows) with
    | nil => rw [hn2] at hlen2; simp at hlen2; omega
    | cons a l => rfl
  have hmean : meanNF (stockCleanOf rows) =
      NF.val (meanQ (numsOf (stockCleanOf rows))) := by
    unfold meanNF
    rw [hnume]
    simp
  have hilen : i < ((cleanData m rows).map RRow.reorder).length := by
    rw [List.length_map, cleanData_eq_map, List.length_map]
    exact hi
  rw [List.getD_eq_getElem _ _ hilen]
  rw [List.getD_eq_getElem _ _ hi] at hmiss
  simp only [cleanData_eq_map, List.map_map, List.getElem_map, Function.comp]
  rw [cleanRow_reorder, if_pos hre, hmiss]
  show fillN (reorderFillOf m rows) NCell.nmis = _
  unfold reorderFillOf fillReorder
  simp only [hst, if_true]
  rw [hmean]
  rfl

/-- C9 witness map: name, stock, sales, reorder resolved. -/
def m9 : CMap :=
  { name := true, category := false, supplier := false, stock := true,
    sales := true, reorder := true, price := false, turnover := false }

/-- C9 witness table: the first row misses stock and reorder, the second
has stock -6 (repaired to 6); the cleaned stock column is [6, 6], so the
reorder fill is 6/5, while a fifth of the raw stock mean would be -6/5. -/
def rows9 : List RRow :=
  [ { rrDflt with name := TCell.str ("A") },
    { rrDflt with
        name := TCell.str ("B"), stock := NCell.num (-6),
        sales := NCell.num 2, reorder := NCell.num 3 } ]

/-- C9 witness: the theorem applied to the concrete table. -/
theorem claim_C9_witness :
    ((cleanData m9 rows9).map RRow.reorder).getD 0 NCell.nmis =
      NCell.num (meanQ (numsOf ((cleanData m9 rows9).map RRow.stock)) * (1 / 5)) ∧
    (numsOf ((cleanData m9 rows9).map RRow.stock)).length = rows9.length :=
  claim_C9_reorder_fill_from_cleaned_stock m9 rows9 0 (by decide) rfl rfl rfl

/-- C2 failing-input column map: name, stock and sales resolved. -/
def mC2 : CMap :=
  { name := true, category := false, supplier := false, stock := true,
    sales := true, reorder := false, price := false, turnover := false }

/-- C2 failing-input table: a row with every critical cell missing,
then a normal row. -/
def rowsC2 : List RRow :=
  [ rrDflt,
    { rrDflt with
        name := TCell.str ("Gadget"), stock := NCell.num 5,
        sales := NCell.num 3 } ]

unseal Rat.add Rat.mul Rat.inv Rat.sub in
/-- C2. The row-pruning step of the Data Cleaner never removes a row:
the source runs dropna(how = all) on the critical columns only after
filling, when a resolved name column holds strings (astype(str)) and
resolved stock and sales columns hold numbers, so no cleaned row has
any missing critical cell, let alone all of them.  Concretely, the row
with name, stock and sales all missing in the pre-fill raw data is
retained as Unknown Product with the median stock 5 and the mean sales
3, against the claim that it is dropped. -/
theorem claim_C2_cleaner_never_drops_rows :
    (∀ (m : CMap) (rows : List RRow), (cleanData m rows).length = rows.length) ∧
    (cleanData mC2 rowsC2).getD 0 rrDflt =
      { rrDflt with
          name := TCell.str ("Unknown Product"), stock := NCell.num 5,
          sales := NCell.num 3 } := by
  refine ⟨?_, by decide⟩
  intro m rows
  rw [cleanData_eq_map]
  exact List.length_map rows (cleanRow m rows)

/-! ## Metric Engine (calculations.py, InventoryCalculations._prepare_data)

The engine is modelled on the cleaner's output: the four required
columns are resolved (the engine raises a KeyError before doing anything
useful otherwise, and every claim at issue assumes them resolved) and
hold the cleaned values; the optional reorder and price flags form the
engine's column map.  EOQ is sqrt of a rational, which is irrational in
general, so the row carries the radicand `(2 * AnnualSales * 50) /
max(HoldingCost, 1)`; no claim inspects the EOQ value itself.
The `_validate_data` step that runs after `_prepare_data` only
re-coerces already numeric columns and fills NaNs that cleaned input
does not contain, so it is not modelled. -/

/-- The engine's optional column map: whether reorder and price resolved
to columns of the frame. -/
structure EMap where
  reorder : Bool
  price : Bool
deriving DecidableEq

/-- A cleaned input row for the engine (the reorder and price fields are
read only when the corresponding EMap flag is set). -/
structure PRow where
  name : String
  category : String
  stock : ℚ
  sales : ℚ
  reorder : ℚ
  price : ℚ
deriving DecidableEq

/-- An augmented row: the input fields plus every derived field. -/
structure ARow where
  name : String
  category : String
  stock : ℚ
  sales : ℚ
  reorder : ℚ
  price : ℚ
  annualSales : ℚ
  cogs : ℚ
  invTurnover : NF
  simpleTurnover : ℚ
  finalTurnover : NF
  daysOfSupply : ℚ
  safetyStock : ℚ
  optimalReorderPoint : ℚ
  eoqRadicand : ℚ
  inventoryValue : ℚ
  abcClass : String
  stockStatus : String
  priorityScore : ℚ
deriving DecidableEq

/-- The base columns of an augmented row, as read by a second engine
run. -/
def ARow.toBase (a : ARow) : PRow :=
  { name := a.name, category := a.category, stock := a.stock,
    sales := a.sales, reorder := a.reorder, price := a.price }

/-- Steps 1 to 8 of _prepare_data, row-wise, in the price-resolved case
(the engine raises before this point otherwise, see prepareData):
annual sales, COGS, the np.where-guarded turnovers reconciled by
np.minimum, days of supply, safety stock, optimal reorder point, the EOQ
radicand and inventory value.  The ABC class, status and priority fields
are placeholders overwritten by finishRow. -/
def augRow (r : PRow) : ARow :=
  let annual := r.sales * 12
  let cogs := annual * r.price
  let invT : NF :=
    if 0 < r.stock then
      NF.div (NF.val cogs)
        (NF.div (NF.mul (NF.val r.stock) (NF.val cogs)) (NF.val annual))
    else NF.val 0
  let simpleT : ℚ := if 0 < r.stock then annual / r.stock else 0
  let finalT := NF.nmin invT (NF.val simpleT)
  let days : ℚ := if 0 < r.sales then r.stock / r.sales * 30 else 365
  let safety := r.sales * (3 / 2)
  let orp := r.sales / 30 * 14 + safety
  let holding := r.price * (1 / 4)
  let eoqRad := 2 * annual * 50 / max holding 1
  let invValue := r.stock * r.price
  { name := r.name, category := r.category, stock := r.stock, sales := r.sales,
    reorder := r.reorder, price := r.price, annualSales := annual, cogs := cogs,
    invTurnover := invT, simpleTurnover := simpleT, finalTurnover := finalT,
    daysOfSupply := days, safetyStock := safety, optimalReorderPoint := orp,
    eoqRadicand := eoqRad, inventoryValue := invValue,
    abcClass := "", stockStatus := "", priorityScore := 0 }

/-- Per-row revenue impact of the ABC step: AnnualSales times COGS,
divided by AnnualSales (left to right, as floats). -/
def impactOf (a : ARow) : NF :=
  NF.div (NF.mul (NF.val a.annualSales) (NF.val a.cogs)) (NF.val a.annualSales)

/-- Descending float order with NaN last (pandas sort_values ascending
false, na_position last); ties are ordered stably here while the source
leaves their order unspecified (quicksort). -/
def nfDescB : NF → NF → Bool
  | NF.nan, NF.nan => true
  | NF.nan, _ => false
  | _, NF.nan => true
  | NF.inf, _ => true
  | _, NF.inf => false
  | _, NF.ninf => true
  | NF.ninf, _ => false
  | NF.val x, NF.val y => decide (y ≤ x)

/-- The sort relation on indexed impacts. -/
def nfDescP (a b : Nat × NF) : Prop := nfDescB a.2 b.2 = true

instance : DecidableRel nfDescP :=
  fun a b => inferInstanceAs (Decidable (nfDescB a.2 b.2 = true))

/-- pandas cumsum with skipna: NaN entries stay NaN and leave the
accumulator unchanged; other entries accumulate. -/
def cumWalk (acc : NF) : List (Nat × NF) → List (Nat × NF)
  | [] => []
  | (i, NF.nan) :: t => (i, NF.nan) :: cumWalk acc t
  | (i, c) :: t => (i, NF.add acc c) :: cumWalk (NF.add acc c) t

/-- pandas sum with skipna: NaN entries are skipped, the empty or
all-NaN sum is 0. -/
def nfColSum (l : List NF) : NF :=
  l.foldr (fun c acc => match c with | NF.nan => acc | c => NF.add c acc) (NF.val 0)

/-- np.select banding of a cumulative percentage: A while at most 70, B
while at most 90, C while at most 100, default C (NaN satisfies no
condition and falls to the default). -/
def abcBand (p : NF) : String :=
  if NF.leb p (NF.val 70) then "A"
  else if NF.leb p (NF.val 90) then "B"
  else if NF.leb p (NF.val 100) then "C"
  else "C"

/-- _calculate_abc_analysis on the impact column: sort descending (NaN
last), cumulative sum, percentage of total, banding, and merge back on
the original index (how left, every index present). -/
def paretoClasses (impacts : List NF) : List String :=
  let pairs := impacts.enum
  let sorted := List.insertionSort nfDescP pairs
  let total := nfColSum (sorted.map Prod.snd)
  let cums := cumWalk (NF.val 0) sorted
  let pcts := cums.map (fun p => (p.1, NF.mul (NF.div p.2 total) (NF.val 100)))
  let labels := pcts.map (fun p => (p.1, abcBand p.2))
  (List.range impacts.length).map (fun i => ((labels.lookup i).getD ("C")))

/-- _classify_stock_status: np.select in fixed priority order, first
match wins, default EXCESS. -/
def statusCascade (stock level days : ℚ) : String :=
  if stock ≤ level * (1 / 2) ∨ days ≤ 7 then "CRITICAL"
  else if stock ≤ level ∨ days ≤ 15 then "LOW"
  else if stock ≤ level * 2 ∧ days ≤ 45 then "NORMAL"
  else if stock ≤ level * 3 ∧ days ≤ 90 then "HEALTHY"
  else "EXCESS"

/-- Steps 9 to 11 for one row: the merged ABC class, the stock status
(reorder level is the resolved reorder column when present, else the
optimal reorder point), and the priority score. -/
def finishRow (m : EMap) (a : ARow) (cls : String) : ARow :=
  let level := if m.reorder then a.reorder else a.optimalReorderPoint
  let status := statusCascade a.stock level a.daysOfSupply
  let priority := (100 - a.daysOfSupply) * (2 / 5) + a.sales * (3 / 10) +
    (if cls = "A" then 1 else 0) * 20 + (if status = "CRITICAL" then 1 else 0) * 30
  { a with abcClass := cls, stockStatus := status, priorityScore := priority }

/-- The whole per-row augmentation in the successful case. -/
def augment (m : EMap) (rows : List PRow) : List ARow :=
  let base := rows.map augRow
  let classes := paretoClasses (base.map impactOf)
  List.zipWith (finishRow m) base classes

/-- _prepare_data.  When price is unresolved, the unit-cost step raises:
np.where evaluates its arguments eagerly, so
`self.df[self.cols[price]]` is evaluated even though the guard is
false, and columns_map[price] is None, which is not a column
(KeyError: None).  When the frame already carries an ABC_Class column
(a rerun on the engine's own output), the index merge in
_calculate_abc_analysis suffixes the colliding column into ABC_Class_x
and ABC_Class_y, and the Priority_Score read of ABC_Class in
_classify_stock_status raises KeyError.  The unit-cost raise comes
first in program order. -/
def prepareData (m : EMap) (hasABC : Bool) (rows : List PRow) : Except String (List ARow) :=
  if m.price = false then Except.error ("KeyError: None")
  else if hasABC then Except.error ("KeyError: ABC_Class")
  else Except.ok (augment m rows)

/-- C1. Whenever the price field is unresolved, the Metric Engine does
not complete: the unit-cost np.where raises KeyError None for every
input table, because Python evaluates df[columns_map[price]] before
np.where ever sees the false condition.  Metric computation therefore
always fails without a price column, against the claim. -/
theorem claim_C1_metric_engine_fails_without_price (b hasABC : Bool) (rows : List PRow) :
    prepareData { reorder := b, price := false } hasABC rows =
      Except.error ("KeyError: None") := by
  unfold prepareData
  simp

/-- C6. Re-running the Metric Engine on its own augmented output always
fails instead of reproducing the derived values: the rerun frame has an
ABC_Class column, the ABC merge then produces ABC_Class_x and
ABC_Class_y, and the Priority_Score computation raises
KeyError ABC_Class. -/
theorem claim_C6_rerun_on_own_output_fails (m : EMap) (rows : List PRow)
    (out : List ARow) (h : prepareData m false rows = Except.ok out) :
    prepareData m true (out.map ARow.toBase) =
      Except.error ("KeyError: ABC_Class") := by
  unfold prepareData at h ⊢
  by_cases hp : m.price = false
  · rw [if_pos hp] at h
    cases h
  · rw [if_neg hp]
    simp

/-- Default engine input row, used only as a getD fallback. -/
def pDflt : PRow :=
  { name := "", category := "", stock := 0, sales := 0, reorder := 0, price := 0 }

/-- Default augmented row, used only as a getD fallback. -/
def aDflt : ARow := augRow pDflt

/-- The ABC step assigns one class per row. -/
theorem paretoClasses_length (impacts : List NF) :
    (paretoClasses impacts).length = impacts.length := by
  unfold paretoClasses
  simp

/-- The engine augments every row and no other. -/
theorem augment_length (m : EMap) (rows : List PRow) :
    (augment m rows).length = rows.length := by
  unfold augment
  simp [paretoClasses_length]

/-- A successful engine run means: price was resolved, the frame had no
ABC_Class column yet, and the output is the augmentation. -/
theorem prepare_ok (m : EMap) (hasABC : Bool) (rows : List PRow) (out : List ARow)
    (h : prepareData m hasABC rows = Except.ok out) :
    m.price = true ∧ hasABC = false ∧ out = augment m rows := by
  unfold prepareData at h
  by_cases hp : m.price = false
  · rw [if_pos hp] at h; cases h
  · rw [if_neg hp] at h
    by_cases hA : hasABC = true
    · rw [if_pos hA] at h; cases h
    · rw [if_neg hA] at h
      injection h with h2
      refine ⟨?_, ?_, h2.symm⟩
      · cases hmp : m.price with
        | true => rfl
        | false => exact absurd hmp hp
      · cases hA2 : hasABC with
        | true => exact absurd hA2 hA
        | false => rfl

/-- Row i of the augmentation: the per-row derivation finished with the
merged ABC class of index i. -/
theorem augment_get (m : EMap) (rows : List PRow) (i : Nat)
    (hi : i < (augment m rows).length) :
    (augment m rows).get ⟨i, hi⟩ =
      finishRow m (augRow (rows.getD i pDflt))
        ((paretoClasses ((rows.map augRow).map impactOf)).getD i ("C")) := by
  have hir : i < rows.length := by rwa [augment_length] at hi
  have hic : i < (paretoClasses ((rows.map augRow).map impactOf)).length := by
    rw [paretoClasses_length]
    simpa using hir
  rw [List.get_eq_getElem]
  unfold augment
  rw [List.getElem_zipWith]
  rw [List.getElem_map, List.getD_eq_getElem _ _ hir, List.getD_eq_getElem _ _ hic]

/-- finishRow keeps every previously derived field. -/
theorem finishRow_base (m : EMap) (a : ARow) (cls : String) :
    (finishRow m a cls).stock = a.stock ∧ (finishRow m a cls).sales = a.sales ∧
    (finishRow m a cls).reorder = a.reorder ∧ (finishRow m a cls).price = a.price ∧
    (finishRow m a cls).annualSales = a.annualSales ∧
    (finishRow m a cls).cogs = a.cogs ∧
    (finishRow m a cls).invTurnover = a.invTurnover ∧
    (finishRow m a cls).simpleTurnover = a.simpleTurnover ∧
    (finishRow m a cls).finalTurnover = a.finalTurnover ∧
    (finishRow m a cls).daysOfSupply = a.daysOfSupply ∧
    (finishRow m a cls).optimalReorderPoint = a.optimalReorderPoint :=
  ⟨rfl, rfl, rfl, rfl, rfl, rfl, rfl, rfl, rfl, rfl, rfl⟩

/-- finishRow computes the status by the cascade over its own stored
fields. -/
theorem finishRow_status (m : EMap) (a : ARow) (cls : String) :
    (finishRow m a cls).stockStatus =
      statusCascade (finishRow m a cls).stock
        (if m.reorder then (finishRow m a cls).reorder
         else (finishRow m a cls).optimalReorderPoint)
        (finishRow m a cls).daysOfSupply := rfl

/-- The minimum of two equal finite values. -/
theorem nmin_val_self (x : ℚ) : NF.nmin (NF.val x) (NF.val x) = NF.val x := by
  simp [NF.nmin, NF.leb]

/-- The status cascade is total over the five labels, and each label is
equivalent to its guard with every earlier guard false (np.select: the
first matching condition wins). -/
theorem statusCascade_spec (s l d : ℚ) :
    (statusCascade s l d = "CRITICAL" ∨ statusCascade s l d = "LOW" ∨
     statusCascade s l d = "NORMAL" ∨ statusCascade s l d = "HEALTHY" ∨
     statusCascade s l d = "EXCESS") ∧
    (statusCascade s l d = "CRITICAL" ↔ (s ≤ l * (1 / 2) ∨ d ≤ 7)) ∧
    (statusCascade s l d = "LOW" ↔
      (¬(s ≤ l * (1 / 2) ∨ d ≤ 7) ∧ (s ≤ l ∨ d ≤ 15))) ∧
    (statusCascade s l d = "NORMAL" ↔
      (¬(s ≤ l * (1 / 2) ∨ d ≤ 7) ∧ ¬(s ≤ l ∨ d ≤ 15) ∧
        (s ≤ l * 2 ∧ d ≤ 45))) ∧
    (statusCascade s l d = "HEALTHY" ↔
      (¬(s ≤ l * (1 / 2) ∨ d ≤ 7) ∧ ¬(s ≤ l ∨ d ≤ 15) ∧
        ¬(s ≤ l * 2 ∧ d ≤ 45) ∧ (s ≤ l * 3 ∧ d ≤ 90))) ∧
    (statusCascade s l d = "EXCESS" ↔
      (¬(s ≤ l * (1 / 2) ∨ d ≤ 7) ∧ ¬(s ≤ l ∨ d ≤ 15) ∧
        ¬(s ≤ l * 2 ∧ d ≤ 45) ∧ ¬(s ≤ l * 3 ∧ d ≤ 90))) := by
  unfold statusCascade
  split_ifs with h1 h2 h3 h4 <;> simp_all

/-- C5. On every successful engine run, stock-status classification is
total over the five labels and evaluates the conditions in fixed
priority order with the first match winning, where the reorder level is
the resolved reorder column when present and the computed optimal
reorder point otherwise; in particular a CRITICAL row always satisfies
the critical guard. -/
theorem claim_C5_status_cascade (m : EMap) (hasABC : Bool) (rows : List PRow)
    (out : List ARow) (h : prepareData m hasABC rows = Except.ok out)
    (i : Fin out.length) (r : ARow) (hrr : r = out.get i) (level : ℚ)
    (hlev : level = if m.reorder then r.reorder else r.optimalReorderPoint) :
    (r.stockStatus = "CRITICAL" ∨ r.stockStatus = "LOW" ∨
     r.stockStatus = "NORMAL" ∨ r.stockStatus = "HEALTHY" ∨
     r.stockStatus = "EXCESS") ∧
    (r.stockStatus = "CRITICAL" ↔ (r.stock ≤ level * (1 / 2) ∨ r.daysOfSupply ≤ 7)) ∧
    (r.stockStatus = "LOW" ↔
      (¬(r.stock ≤ level * (1 / 2) ∨ r.daysOfSupply ≤ 7) ∧
        (r.stock ≤ level ∨ r.daysOfSupply ≤ 15))) ∧
    (r.stockStatus = "NORMAL" ↔
      (¬(r.stock ≤ level * (1 / 2) ∨ r.daysOfSupply ≤ 7) ∧
        ¬(r.stock ≤ level ∨ r.daysOfSupply ≤ 15) ∧
        (r.stock ≤ level * 2 ∧ r.daysOfSupply ≤ 45))) ∧
    (r.stockStatus = "HEALTHY" ↔
      (¬(r.stock ≤ level * (1 / 2) ∨ r.daysOfSupply ≤ 7) ∧
        ¬(r.stock ≤ level ∨ r.daysOfSupply ≤ 15) ∧
        ¬(r.stock ≤ level * 2 ∧ r.daysOfSupply ≤ 45) ∧
        (r.stock ≤ level * 3 ∧ r.daysOfSupply ≤ 90))) ∧
    (r.stockStatus = "EXCESS" ↔
      (¬(r.stock ≤ level * (1 / 2) ∨ r.daysOfSupply ≤ 7) ∧
        ¬(r.stock ≤ level ∨ r.daysOfSupply ≤ 15) ∧
        ¬(r.stock ≤ level * 2 ∧ r.daysOfSupply ≤ 45) ∧
        ¬(r.stock ≤ level * 3 ∧ r.daysOfSupply ≤ 90))) := by
  obtain ⟨hp, hA, hout⟩ := prepare_ok m hasABC rows out h
  subst hout
  rw [augment_get m rows i.val i.isLt] at hrr
  have hss : r.stockStatus = statusCascade r.stock level r.daysOfSupply := by
    rw [hlev, hrr]
    exact finishRow_status m _ _
  rw [hss]
  exact statusCascade_spec r.stock level r.daysOfSupply

/-- C5 witness engine map: reorder and price resolved. -/
def m5 : EMap := { reorder := true, price := true }

/-- C5 witness table: the spec example row stock 0, sales 10, reorder 5
(plus a price so the engine can complete at all, see C1). -/
def rows5 : List PRow :=
  [ { name := "W", category := "T", stock := 0, sales := 10,
      reorder := 5, price := 2 } ]

/-- C5 witness output table. -/
def out5 : List ARow := (prepareData m5 false rows5).toOption.getD []

unseal Rat.add Rat.mul Rat.inv Rat.sub in
/-- C5 witness: the example row stock 0, sales 10, reorder 5 is
CRITICAL (stock 0 is at most half the reorder level 5). -/
theorem claim_C5_witness :
    (out5.get ⟨0, by decide⟩).stockStatus = "CRITICAL" := by
  have h5 : prepareData m5 false rows5 = Except.ok out5 := rfl
  have hmain := claim_C5_status_cascade m5 false rows5 out5 h5 ⟨0, by decide⟩
    (out5.get ⟨0, by decide⟩) rfl
    (if m5.reorder then (out5.get ⟨0, by decide⟩).reorder
     else (out5.get ⟨0, by decide⟩).optimalReorderPoint) rfl
  exact hmain.2.1.mpr (by decide)

/-- Product of finite values. -/
theorem NF.mul_val (x y : ℚ) : NF.mul (NF.val x) (NF.val y) = NF.val (x * y) := rfl

/-- Quotient of finite values with a nonzero divisor. -/
theorem NF.div_val (x y : ℚ) (hy : y ≠ 0) :
    NF.div (NF.val x) (NF.val y) = NF.val (x / y) := by
  unfold NF.div
  simp [hy]

/-- Zero over zero is NaN. -/
theorem NF.div_zero_zero : NF.div (NF.val 0) (NF.val 0) = NF.nan := by
  unfold NF.div
  simp

/-- Division by NaN is NaN. -/
theorem NF.div_val_nan (x : ℚ) : NF.div (NF.val x) NF.nan = NF.nan := rfl

/-- np.minimum propagates a NaN on the left. -/
theorem NF.nmin_nan_left (b : NF) : NF.nmin NF.nan b = NF.nan := by
  cases b <;> rfl

/-- The derived fields of the per-row augmentation, read back. -/
theorem augRow_fields (p : PRow) :
    (augRow p).stock = p.stock ∧ (augRow p).sales = p.sales ∧
    (augRow p).annualSales = p.sales * 12 ∧
    (augRow p).cogs = p.sales * 12 * p.price ∧
    (augRow p).simpleTurnover = (if 0 < p.stock then p.sales * 12 / p.stock else 0) ∧
    (augRow p).invTurnover =
      (if 0 < p.stock then
        NF.div (NF.val (p.sales * 12 * p.price))
          (NF.div (NF.mul (NF.val p.stock) (NF.val (p.sales * 12 * p.price)))
            (NF.val (p.sales * 12)))
      else NF.val 0) ∧
    (augRow p).finalTurnover =
      NF.nmin (augRow p).invTurnover (NF.val (augRow p).simpleTurnover) :=
  ⟨rfl, rfl, rfl, rfl, rfl, rfl, rfl⟩

/-- The turnover facts at one augmented row: the reconciliation is
np.minimum; SimpleTurnover is nonnegative; when stock is nonpositive or
COGS nonzero the two estimates coincide (COGS cancels); when stock is
positive and COGS zero the formula estimate is NaN. -/
theorem augRow_turnover_spec (p : PRow) (hsal : 0 ≤ p.sales) :
    (augRow p).finalTurnover =
      NF.nmin (augRow p).invTurnover (NF.val (augRow p).simpleTurnover) ∧
    0 ≤ (augRow p).simpleTurnover ∧
    (((augRow p).stock ≤ 0 ∨ (augRow p).cogs ≠ 0) →
      (augRow p).invTurnover = NF.val (augRow p).simpleTurnover ∧
      (augRow p).finalTurnover = NF.val (augRow p).simpleTurnover) ∧
    ((0 < (augRow p).stock ∧ (augRow p).cogs = 0) →
      (augRow p).invTurnover = NF.nan ∧ (augRow p).finalTurnover = NF.nan) := by
  obtain ⟨ast, asl, aan, acg, asi, ain, afi⟩ := augRow_fields p
  have hsimple : 0 ≤ (augRow p).simpleTurnover := by
    rw [asi]
    by_cases hS : 0 < p.stock
    · rw [if_pos hS]
      exact div_nonneg (by linarith) (le_of_lt hS)
    · rw [if_neg hS]
  refine ⟨afi, hsimple, ?_, ?_⟩
  · intro hd
    rw [ast, acg] at hd
    have hiv : (augRow p).invTurnover = NF.val ((augRow p).simpleTurnover) := by
      by_cases hS : 0 < p.stock
      · have hcogs : p.sales * 12 * p.price ≠ 0 := by
          rcases hd with hd1 | hd2
          · exact absurd hS (not_lt.mpr hd1)
          · exact hd2
        have hAnn : p.sales * 12 ≠ 0 := fun h0 => hcogs (by rw [h0, zero_mul])
        have hSC : p.stock * (p.sales * 12 * p.price) ≠ 0 :=
          mul_ne_zero (ne_of_gt hS) hcogs
        have hden : p.stock * (p.sales * 12 * p.price) / (p.sales * 12) ≠ 0 :=
          div_ne_zero hSC hAnn
        rw [ain, asi, if_pos hS, if_pos hS, NF.mul_val,
          NF.div_val _ _ hAnn, NF.div_val _ _ hden]
        congr 1
        field_simp
        ring
      · rw [ain, asi, if_neg hS, if_neg hS]
    exact ⟨hiv, by rw [afi, hiv, nmin_val_self]⟩
  · intro hd
    rw [ast, acg] at hd
    obtain ⟨hS, hC⟩ := hd
    have hiv : (augRow p).invTurnover = NF.nan := by
      rw [ain, if_pos hS, hC]
      have h1 : NF.mul (NF.val p.stock) (NF.val 0) = NF.val 0 := by
        rw [NF.mul_val, mul_zero]
      by_cases hAnn : p.sales * 12 = 0
      · rw [hAnn, h1, NF.div_zero_zero, NF.div_val_nan]
      · rw [h1, NF.div_val _ _ hAnn, zero_div, NF.div_zero_zero]
    exact ⟨hiv, by rw [afi, hiv, NF.nmin_nan_left]⟩

/-- C3 (amended). On every successful engine run over cleaned rows
(nonnegative sales), every augmented row has FinalTurnover equal to
np.minimum of the formula turnover and SimpleTurnover, and
SimpleTurnover is nonnegative; on rows with nonpositive stock or
nonzero COGS the formula turnover coincides with SimpleTurnover (the
COGS factors cancel) and FinalTurnover is that common nonnegative
value; but on rows with positive stock and zero COGS (zero sales or a
zero price) the formula turnover and FinalTurnover are NaN, not
nonnegative numbers. -/
theorem claim_C3_final_turnover_min (m : EMap) (hasABC : Bool) (rows : List PRow)
    (out : List ARow) (h : prepareData m hasABC rows = Except.ok out)
    (hclean : ∀ p ∈ rows, 0 ≤ p.sales) (i : Fin out.length) (r : ARow)
    (hrr : r = out.get i) :
    r.finalTurnover = NF.nmin r.invTurnover (NF.val r.simpleTurnover) ∧
    0 ≤ r.simpleTurnover ∧
    ((r.stock ≤ 0 ∨ r.cogs ≠ 0) →
      r.invTurnover = NF.val r.simpleTurnover ∧
      r.finalTurnover = NF.val r.simpleTurnover) ∧
    ((0 < r.stock ∧ r.cogs = 0) →
      r.invTurnover = NF.nan ∧ r.finalTurnover = NF.nan) := by
  obtain ⟨hp, hA, hout⟩ := prepare_ok m hasABC rows out h
  subst hout
  have hir : i.val < rows.length := Nat.lt_of_lt_of_eq i.isLt (augment_length m rows)
  rw [augment_get m rows i.val i.isLt] at hrr
  have hpm : rows.getD i.val pDflt ∈ rows := by
    rw [List.getD_eq_getElem _ _ hir]
    exact List.getElem_mem hir
  have hsal : 0 ≤ (rows.getD i.val pDflt).sales := hclean _ hpm
  subst hrr
  obtain ⟨hst, hsl, _, _, han, hcg, hin, hsi, hfi, _, _⟩ :=
    finishRow_base m (augRow (rows.getD i.val pDflt))
      ((paretoClasses ((rows.map augRow).map impactOf)).getD i.val ("C"))
  rw [hst, hcg, hin, hsi, hfi]
  exact augRow_turnover_spec (rows.getD i.val pDflt) hsal

/-- C3 counterexample engine map. -/
def m3 : EMap := { reorder := false, price := true }

/-- C3 counterexample table: one row with positive stock and zero
sales. -/
def rows3 : List PRow :=
  [ { name := "Z", category := "C", stock := 1, sales := 0,
      reorder := 0, price := 3 } ]

/-- C3 counterexample output table. -/
def out3 : List ARow := (prepareData m3 false rows3).toOption.getD []

unseal Rat.add Rat.mul Rat.inv Rat.sub in
/-- C3 counterexample: on the augmented row with stock 1 and sales 0
the formula turnover is NaN (the source divides COGS 0 by a NaN
denominator built from 0 divided by AnnualSales 0), FinalTurnover is
NaN, and NaN is not at least 0 — refuting "both estimates are greater
than or equal to 0" for every row. -/
theorem claim_C3_counterexample :
    (out3.getD 0 aDflt).invTurnover = NF.nan ∧
    (out3.getD 0 aDflt).finalTurnover = NF.nan ∧
    NF.leb (NF.val 0) ((out3.getD 0 aDflt).invTurnover) = false := by decide

unseal Rat.add Rat.mul Rat.inv Rat.sub in
/-- C3 witness: the amended theorem applied to the concrete example
table (stock 0): the two turnover estimates coincide and are
nonnegative there. -/
theorem claim_C3_witness :
    (out5.get ⟨0, by decide⟩).invTurnover =
      NF.val ((out5.get ⟨0, by decide⟩).simpleTurnover) ∧
    0 ≤ (out5.get ⟨0, by decide⟩).simpleTurnover := by
  have h5 : prepareData m5 false rows5 = Except.ok out5 := rfl
  have hmain := claim_C3_final_turnover_min m5 false rows5 out5 h5 (by decide)
    ⟨0, by decide⟩ (out5.get ⟨0, by decide⟩) rfl
  exact ⟨(hmain.2.2.1 (by decide)).1, hmain.2.1⟩

/-! ## C4: ABC classification

The claim describes the ranking value as AnnualSales; the source ranks
by `AnnualSales * COGS / AnnualSales`, which is COGS.  The reference
procedure below follows the spec's own words (rank descending, take the
cumulative percentage of the total, band inclusively at 70 and 90) over
a given per-row value column, so that the code can be compared against
it with AnnualSales (the claim, refuted) and with COGS (the amendment,
proved). -/

/-- Descending order on indexed rational values. -/
def qDescP (a b : Nat × ℚ) : Prop := b.2 ≤ a.2

instance : DecidableRel qDescP :=
  fun a b => inferInstanceAs (Decidable (b.2 ≤ a.2))

/-- Cumulative sums along the sorted pairs. -/
def qCumWalk (acc : ℚ) : List (Nat × ℚ) → List (Nat × ℚ)
  | [] => []
  | (i, x) :: t => (i, acc + x) :: qCumWalk (acc + x) t

/-- Modelled from the spec words of the ABC step, over a per-row value
column: rank rows descending by the value (stably), compute each row's
cumulative percentage of the total, assign A while at most 70, B while
at most 90, C otherwise, and restore the original row order. -/
def specAbcRanking (xs : List ℚ) : List String :=
  let sorted := List.insertionSort qDescP xs.enum
  let cums := qCumWalk 0 sorted
  let labels := cums.map (fun p =>
    (p.1, if p.2 / qSum xs * 100 ≤ 70 then "A"
          else if p.2 / qSum xs * 100 ≤ 90 then "B" else "C"))
  (List.range xs.length).map (fun i => ((labels.lookup i).getD ("C")))

/-- Pairing an index with the float embedding of its value. -/
def valPair (p : Nat × ℚ) : Nat × NF := (p.1, NF.val p.2)

/-- Ordered insertion commutes with the float embedding. -/
theorem orderedInsert_valPair (a : Nat × ℚ) (l : List (Nat × ℚ)) :
    List.orderedInsert nfDescP (valPair a) (l.map valPair) =
      (List.orderedInsert qDescP a l).map valPair := by
  induction l with
  | nil => rfl
  | cons b t ih =>
      by_cases hc : b.2 ≤ a.2
      · have h1 : nfDescP (valPair a) (valPair b) := by
          simp [nfDescP, valPair, nfDescB, hc]
        have h2 : qDescP a b := hc
        simp only [List.map_cons, List.orderedInsert, if_pos h1, if_pos h2,
          List.map_cons]
      · have h1 : ¬nfDescP (valPair a) (valPair b) := by
          simp [nfDescP, valPair, nfDescB, hc]
        have h2 : ¬qDescP a b := hc
        simp only [List.map_cons, List.orderedInsert, if_neg h1, if_neg h2,
          List.map_cons, ih]

/-- Insertion sort commutes with the float embedding. -/
theorem insertionSort_valPair (l : List (Nat × ℚ)) :
    List.insertionSort nfDescP (l.map valPair) =
      (List.insertionSort qDescP l).map valPair := by
  induction l with
  | nil => rfl
  | cons a t ih =>
      simp only [List.map_cons, List.insertionSort, ih, orderedInsert_valPair]

/-- The cumulative walk commutes with the float embedding. -/
theorem cumWalk_valPair (a : ℚ) (l : List (Nat × ℚ)) :
    cumWalk (NF.val a) (l.map valPair) = (qCumWalk a l).map valPair := by
  induction l generalizing a with
  | nil => rfl
  | cons b t ih =>
      obtain ⟨i, x⟩ := b
      simp only [List.map_cons, valPair, cumWalk, qCumWalk, List.map_cons]
      rw [show NF.add (NF.val a) (NF.val x) = NF.val (a + x) from rfl, ih]

/-- qSum is List.sum. -/
theorem qSum_eq_sum (l : List ℚ) : qSum l = l.sum := by
  induction l with
  | nil => rfl
  | cons a t ih => simp [qSum, List.sum_cons] at ih ⊢; rw [← ih]

/-- The float column sum of embedded values is the rational sum. -/
theorem nfColSum_val (l : List ℚ) : nfColSum (l.map NF.val) = NF.val (qSum l) := by
  induction l with
  | nil => rfl
  | cons a t ih =>
      simp only [List.map_cons, nfColSum, List.foldr_cons] at ih ⊢
      rw [ih]
      rfl

/-- The banding of an embedded percentage agrees with the spec's
three-way banding (above 90 the source's third inclusive test at 100
and its default both yield C). -/
theorem abcBand_val (q : ℚ) :
    abcBand (NF.val q) = (if q ≤ 70 then "A" else if q ≤ 90 then "B" else "C") := by
  unfold abcBand NF.leb
  by_cases h1 : q ≤ 70
  · simp [h1]
  · by_cases h2 : q ≤ 90
    · simp [h1, h2]
    · by_cases h3 : q ≤ 100 <;> simp [h1, h2, h3]

set_option maxHeartbeats 1000000 in
/-- The source's ABC pipeline over embedded finite impacts equals the
spec-words ranking procedure over the rational impacts, provided the
total is nonzero (so the percentage division is the honest rational
one). -/
theorem paretoClasses_val (xs : List ℚ) (hT : qSum xs ≠ 0) :
    paretoClasses (xs.map NF.val) = specAbcRanking xs := by
  simp only [paretoClasses, specAbcRanking]
  have henum : (List.map NF.val xs).enum = xs.enum.map valPair := by
    rw [List.enum_map]
    apply List.map_congr_left
    intro p _
    rfl
  rw [henum, insertionSort_valPair, cumWalk_valPair, List.length_map]
  have htot : nfColSum (List.map Prod.snd
      ((List.insertionSort qDescP xs.enum).map valPair)) = NF.val (qSum xs) := by
    rw [List.map_map]
    have hc : (Prod.snd ∘ valPair) = (NF.val ∘ Prod.snd) := rfl
    rw [hc, ← List.map_map, nfColSum_val]
    have hperm : List.Perm ((List.insertionSort qDescP xs.enum).map Prod.snd) xs := by
      have h1 := (List.perm_insertionSort qDescP xs.enum).map Prod.snd
      rwa [List.enum_map_snd] at h1
    rw [qSum_eq_sum, qSum_eq_sum]
    exact congrArg NF.val hperm.sum_eq
  rw [htot]
  have hlabels : List.map (fun p => (p.1, abcBand p.2))
      (List.map (fun p => (p.1, NF.mul (NF.div p.2 (NF.val (qSum xs))) (NF.val 100)))
        ((qCumWalk 0 (List.insertionSort qDescP xs.enum)).map valPair)) =
      List.map (fun p =>
          (p.1, if p.2 / qSum xs * 100 ≤ 70 then "A"
                else if p.2 / qSum xs * 100 ≤ 90 then "B" else "C"))
        (qCumWalk 0 (List.insertionSort qDescP xs.enum)) := by
    rw [List.map_map, List.map_map]
    apply List.map_congr_left
    intro p _
    obtain (⟨i, c⟩) := p
    show (i, abcBand (NF.mul (NF.div (NF.val c) (NF.val (qSum xs))) (NF.val 100))) = _
    rw [NF.div_val _ _ hT, NF.mul_val, abcBand_val]
  rw [hlabels]

/-- The spec ranking assigns one class per row. -/
theorem specAbcRanking_length (xs : List ℚ) :
    (specAbcRanking xs).length = xs.length := by
  unfold specAbcRanking
  simp

/-- A nonempty list of positive rationals has positive sum. -/
theorem qSum_pos (l : List ℚ) (h : ∀ x ∈ l, 0 < x) (hne : l ≠ []) : 0 < qSum l := by
  induction l with
  | nil => exact absurd rfl hne
  | cons a t ih =>
      have ha := h a (List.mem_cons_self a t)
      cases t with
      | nil => simpa [qSum] using ha
      | cons b u =>
          have ht := ih (fun x hx => h x (List.mem_cons_of_mem _ hx)) (by simp)
          have : qSum (a :: b :: u) = a + qSum (b :: u) := rfl
          rw [this]
          linarith

/-- With nonzero sales, the revenue impact of an augmented row is
exactly its COGS (the AnnualSales factors cancel). -/
theorem impacts_eq_cogs (rows : List PRow) (hpos : ∀ p ∈ rows, p.sales ≠ 0) :
    (rows.map augRow).map impactOf =
      (rows.map (fun p => p.sales * 12 * p.price)).map NF.val := by
  rw [List.map_map, List.map_map]
  apply List.map_congr_left
  intro p hp
  show impactOf (augRow p) = NF.val (p.sales * 12 * p.price)
  unfold impactOf
  obtain ⟨_, _, aan, acg, _, _, _⟩ := augRow_fields p
  rw [aan, acg]
  have hA : p.sales * 12 ≠ 0 :=
    mul_ne_zero (hpos p hp) (by norm_num)
  rw [NF.mul_val, NF.div_val _ _ hA]
  exact congrArg NF.val (mul_div_cancel_left₀ _ hA)

/-- The class column of the zipped finish step is the class list. -/
theorem map_abcClass_zipWith (m : EMap) (base : List ARow) (classes : List String)
    (h : base.length = classes.length) :
    (List.zipWith (finishRow m) base classes).map ARow.abcClass = classes := by
  induction base generalizing classes with
  | nil =>
      cases classes with
      | nil => rfl
      | cons c ct => simp at h
  | cons a t ih =>
      cases classes with
      | nil => simp at h
      | cons c ct =>
          simp only [List.zipWith_cons_cons, List.map_cons]
          rw [ih ct (by simpa using h)]
          rfl

/-- The base columns of the zipped finish step are the input rows:
classification changes no other field and the merge preserves row
order. -/
theorem map_toBase_zipWith (m : EMap) (rows : List PRow) (classes : List String)
    (h : rows.length = classes.length) :
    (List.zipWith (finishRow m) (rows.map augRow) classes).map ARow.toBase = rows := by
  induction rows generalizing classes with
  | nil =>
      cases classes with
      | nil => rfl
      | cons c ct => simp at h
  | cons p t ih =>
      cases classes with
      | nil => simp at h
      | cons c ct =>
          simp only [List.map_cons, List.zipWith_cons_cons]
          rw [ih ct (by simpa using h)]
          rfl

/-- C4 (amended). On every successful engine run over rows with
positive sales and positive price, the ABC step ranks rows descending
by the per-row revenue impact, which equals COGS = AnnualSales times
unit price (not AnnualSales), bands the cumulative percentage of the
total inclusively at 70 and 90, and merges the classes back without
disturbing row order or any other field. -/
theorem claim_C4_abc_ranks_by_cogs (m : EMap) (hasABC : Bool) (rows : List PRow)
    (out : List ARow) (h : prepareData m hasABC rows = Except.ok out)
    (hpos : ∀ p ∈ rows, 0 < p.sales ∧ 0 < p.price) :
    out.map ARow.abcClass =
      specAbcRanking (rows.map (fun p => p.sales * 12 * p.price)) ∧
    out.map ARow.toBase = rows := by
  obtain ⟨hp, hA, hout⟩ := prepare_ok m hasABC rows out h
  subst hout
  have hsal : ∀ p ∈ rows, p.sales ≠ 0 := fun p hp2 => ne_of_gt (hpos p hp2).1
  have himp := impacts_eq_cogs rows hsal
  have hcls : paretoClasses ((rows.map augRow).map impactOf) =
      specAbcRanking (rows.map (fun p => p.sales * 12 * p.price)) := by
    rw [himp]
    cases hrows : rows with
    | nil => rfl
    | cons r0 rt =>
        rw [← hrows]
        apply paretoClasses_val
        apply ne_of_gt
        apply qSum_pos
        · intro x hx
          obtain ⟨p, hpmem, rfl⟩ := List.mem_map.mp hx
          have := hpos p hpmem
          have h12 : (0:ℚ) < 12 := by norm_num
          nlinarith [this.1, this.2]
        · rw [hrows]
          simp
  have hlen : (rows.map augRow).length =
      (paretoClasses ((rows.map augRow).map impactOf)).length := by
    rw [paretoClasses_length]
    simp
  constructor
  · show (List.zipWith (finishRow m) (rows.map augRow)
      (paretoClasses ((rows.map augRow).map impactOf))).map ARow.abcClass = _
    rw [map_abcClass_zipWith m _ _ hlen, hcls]
  · show (List.zipWith (finishRow m) (rows.map augRow)
      (paretoClasses ((rows.map augRow).map impactOf))).map ARow.toBase = rows
    exact map_toBase_zipWith m rows _ (by simpa using hlen)

/-- C4 counterexample engine map. -/
def m4 : EMap := { reorder := false, price := true }

/-- C4 counterexample table: a low-price high-seller and a high-price
low-seller, so the AnnualSales ranking and the COGS ranking disagree. -/
def rows4 : List PRow :=
  [ { name := "P1", category := "G", stock := 1, sales := 10,
      reorder := 0, price := 1 },
    { name := "P2", category := "G", stock := 1, sales := 5,
      reorder := 0, price := 100 } ]

/-- C4 counterexample output table. -/
def out4 : List ARow := (prepareData m4 false rows4).toOption.getD []

unseal Rat.add Rat.mul Rat.inv Rat.sub in
/-- C4 counterexample: the engine assigns classes C and C (it ranks by
COGS 120 and 6000, putting P2 first at 98 percent), while ranking by
AnnualSales as the claim states would give P1 class A (120 of 180 is 67
percent); the claimed procedure disagrees with the code on this
table. -/
theorem claim_C4_counterexample :
    out4.map ARow.abcClass = ["C", "C"] ∧
    specAbcRanking (out4.map ARow.annualSales) = ["A", "C"] ∧
    out4.map ARow.abcClass ≠ specAbcRanking (out4.map ARow.annualSales) := by decide

unseal Rat.add Rat.mul Rat.inv Rat.sub in
/-- C4 witness: the amended theorem applied to the concrete table. -/
theorem claim_C4_witness :
    out4.map ARow.abcClass =
      specAbcRanking (rows4.map (fun p => p.sales * 12 * p.price)) ∧
    out4.map ARow.toBase = rows4 :=
  claim_C4_abc_ranks_by_cogs m4 false rows4 out4 rfl (by decide)

/-- C6 witness engine map. -/
def m6 : EMap := { reorder := true, price := true }

/-- C6 witness table: one ordinary row. -/
def rows6 : List PRow :=
  [ { name := "Widget", category := "Tools", stock := 5, sales := 2,
      reorder := 10, price := 3 } ]

/-- C6 witness: the first run on the concrete table succeeds, and the
rerun on its output fails with the ABC_Class KeyError. -/
theorem claim_C6_witness :
    prepareData m6 true
        (((prepareData m6 false rows6).toOption.getD []).map ARow.toBase) =
      Except.error ("KeyError: ABC_Class") :=
  claim_C6_rerun_on_own_output_fails m6 rows6 _ rfl

/-! ## Aggregator: fast and slow movers
(calculations.py, InventoryCalculations.get_fast_slow_movers) -/

/-- Ascending float order with NaN last. -/
def nfAscB : NF → NF → Bool
  | NF.nan, NF.nan => true
  | NF.nan, _ => false
  | _, NF.nan => true
  | NF.ninf, _ => true
  | _, NF.ninf => false
  | _, NF.inf => true
  | NF.inf, _ => false
  | NF.val x, NF.val y => decide (x ≤ y)

/-- Descending order of rows by Final_Turnover. -/
def turnDescP (a b : ARow) : Prop := nfDescB a.finalTurnover b.finalTurnover = true

instance : DecidableRel turnDescP :=
  fun a b => inferInstanceAs (Decidable (nfDescB a.finalTurnover b.finalTurnover = true))

/-- Ascending order of rows by Final_Turnover. -/
def turnAscP (a b : ARow) : Prop := nfAscB a.finalTurnover b.finalTurnover = true

instance : DecidableRel turnAscP :=
  fun a b => inferInstanceAs (Decidable (nfAscB a.finalTurnover b.finalTurnover = true))

/-- Descending order of rows by Priority_Score. -/
def prioDescP (a b : ARow) : Prop := b.priorityScore ≤ a.priorityScore

instance : DecidableRel prioDescP :=
  fun a b => inferInstanceAs (Decidable (b.priorityScore ≤ a.priorityScore))

/-- DataFrame.nlargest(n, Final_Turnover), keep first: NaN keys are
excluded, the rest ordered descending with earlier rows first among
ties, and the first n kept. -/
def nlargestTurn (n : Nat) (l : List ARow) : List ARow :=
  (List.insertionSort turnDescP (l.filter (fun r => !r.finalTurnover.isNan))).take n

/-- DataFrame.nsmallest(n, Final_Turnover), keep first. -/
def nsmallestTurn (n : Nat) (l : List ARow) : List ARow :=
  (List.insertionSort turnAscP (l.filter (fun r => !r.finalTurnover.isNan))).take n

/-- DataFrame.nlargest(n, Priority_Score), keep first (the priority
column is a plain rational, never NaN). -/
def nlargestPrio (n : Nat) (l : List ARow) : List ARow :=
  (List.insertionSort prioDescP l).take n

/-- Series.quantile with linear interpolation over the non-NaN values
(the turnover column holds finite values or NaN, never infinities). -/
def quantileNF (q : ℚ) (l : List NF) : NF :=
  let nn := List.insertionSort (fun a b : ℚ => a ≤ b)
    (l.filterMap (fun c => match c with | NF.val x => some x | _ => none))
  if nn.length = 0 then NF.nan
  else
    let pos : ℚ := ((nn.length - 1 : ℕ) : ℚ) * q
    let lo := (⌊pos⌋).toNat
    if lo + 1 < nn.length then
      NF.val (nn.getD lo 0 + (pos - (lo : ℚ)) * (nn.getD (lo + 1) 0 - nn.getD lo 0))
    else NF.val (nn.getD lo 0)

/-- The fast cohort: rows whose Final_Turnover is at least the 75th
percentile (a NaN turnover never qualifies, as in pandas). -/
def fastCohort (rows : List ARow) : List ARow :=
  rows.filter (fun r =>
    NF.leb (quantileNF (3 / 4) (rows.map ARow.finalTurnover)) r.finalTurnover)

/-- The slow cohort: rows whose Final_Turnover is at most the 25th
percentile. -/
def slowCohort (rows : List ARow) : List ARow :=
  rows.filter (fun r =>
    NF.leb r.finalTurnover (quantileNF (1 / 4) (rows.map ARow.finalTurnover)))

/-- The reported fast movers: the source takes the cohort's top 10 by
Final_Turnover and then format_movers reorders those same rows by
Priority_Score. -/
def fastList (rows : List ARow) : List ARow :=
  nlargestPrio 10 (nlargestTurn 10 (fastCohort rows))

/-- The reported slow movers: the cohort's bottom 10 by Final_Turnover,
reordered by Priority_Score by format_movers. -/
def slowList (rows : List ARow) : List ARow :=
  nlargestPrio 10 (nsmallestTurn 10 (slowCohort rows))

/-- Modelled from the claim's words: the fast-mover list as the fast
cohort limited to the top 10 rows by priority score. -/
def specFastClaim (rows : List ARow) : List ARow :=
  nlargestPrio 10 (fastCohort rows)

/-- The descending float order is total. -/
theorem nfDescB_total (a b : NF) : nfDescB a b = true ∨ nfDescB b a = true := by
  cases a <;> cases b <;> simp [nfDescB] <;> exact le_total _ _

/-- The descending float order is transitive. -/
theorem nfDescB_trans (a b c : NF) (h1 : nfDescB a b = true)
    (h2 : nfDescB b c = true) : nfDescB a c = true := by
  cases a <;> cases b <;> cases c <;> simp_all [nfDescB] <;> exact le_trans h2 h1

/-- The ascending float order is total. -/
theorem nfAscB_total (a b : NF) : nfAscB a b = true ∨ nfAscB b a = true := by
  cases a <;> cases b <;> simp [nfAscB] <;> exact le_total _ _

/-- The ascending float order is transitive. -/
theorem nfAscB_trans (a b c : NF) (h1 : nfAscB a b = true)
    (h2 : nfAscB b c = true) : nfAscB a c = true := by
  cases a <;> cases b <;> cases c <;> simp_all [nfAscB] <;> exact le_trans h1 h2

instance : IsTotal ARow turnDescP := ⟨fun _ _ => nfDescB_total _ _⟩

instance : IsTrans ARow turnDescP := ⟨fun _ _ _ h1 h2 => nfDescB_trans _ _ _ h1 h2⟩

instance : IsTotal ARow turnAscP := ⟨fun _ _ => nfAscB_total _ _⟩

instance : IsTrans ARow turnAscP := ⟨fun _ _ _ h1 h2 => nfAscB_trans _ _ _ h1 h2⟩

instance : IsTotal ARow prioDescP := ⟨fun _ _ => le_total _ _⟩

instance : IsTrans ARow prioDescP := ⟨fun _ _ _ h1 h2 => le_trans h2 h1⟩

/-- Nothing is IEEE-below NaN. -/
theorem leb_right_nan (a : NF) : NF.leb a NF.nan = false := by
  cases a <;> rfl

/-- NaN is IEEE-below nothing. -/
theorem leb_left_nan (b : NF) : NF.leb NF.nan b = false := by
  cases b <;> rfl

/-- On non-NaN values, the descending sort order is the reversed IEEE
comparison. -/
theorem leb_of_nfDescB (a b : NF) (ha : a.isNan = false) (hb : b.isNan = false)
    (h : nfDescB a b = true) : NF.leb b a = true := by
  cases a <;> cases b <;> simp_all [nfDescB, NF.leb, NF.isNan]

/-- On non-NaN values, the ascending sort order is the IEEE
comparison. -/
theorem leb_of_nfAscB (a b : NF) (ha : a.isNan = false) (hb : b.isNan = false)
    (h : nfAscB a b = true) : NF.leb a b = true := by
  cases a <;> cases b <;> simp_all [nfAscB, NF.leb, NF.isNan]

/-- A fast-cohort row has a non-NaN turnover (NaN fails the percentile
comparison). -/
theorem fastCohort_not_nan (rows : List ARow) (r : ARow)
    (hr : r ∈ fastCohort rows) : r.finalTurnover.isNan = false := by
  have hleb := (List.mem_filter.mp hr).2
  cases h : r.finalTurnover with
  | nan =>
      rw [h, leb_right_nan] at hleb
      cases hleb
  | inf => rfl
  | ninf => rfl
  | val x => rfl

/-- A slow-cohort row has a non-NaN turnover. -/
theorem slowCohort_not_nan (rows : List ARow) (r : ARow)
    (hr : r ∈ slowCohort rows) : r.finalTurnover.isNan = false := by
  have hleb := (List.mem_filter.mp hr).2
  cases h : r.finalTurnover with
  | nan =>
      rw [h, leb_left_nan] at hleb
      cases hleb
  | inf => rfl
  | ninf => rfl
  | val x => rfl

/-- C8 (amended). For every augmented table: the reported fast-mover
list consists of fast-cohort rows (Final_Turnover at or above the 75th
percentile), holds min(10, cohort size) rows, and is the cohort's top
10 by Final_Turnover — every cohort row left out has turnover at most
that of every reported row — presented in descending Priority_Score
order (the secondary limit is by turnover, not by priority score as
claimed); the reported slow-mover list is the slow cohort's bottom 10
by raw turnover, also presented in descending priority order. -/
theorem claim_C8_movers_lists (rows : List ARow) :
    (∀ r ∈ fastList rows, r ∈ fastCohort rows) ∧
    (fastList rows).length = min 10 (fastCohort rows).length ∧
    (∀ r ∈ fastCohort rows, r ∉ fastList rows →
      ∀ s ∈ fastList rows, NF.leb r.finalTurnover s.finalTurnover = true) ∧
    List.Sorted prioDescP (fastList rows) ∧
    (∀ r ∈ slowList rows, r ∈ slowCohort rows) ∧
    (slowList rows).length = min 10 (slowCohort rows).length ∧
    (∀ r ∈ slowCohort rows, r ∉ slowList rows →
      ∀ s ∈ slowList rows, NF.leb s.finalTurnover r.finalTurnover = true) ∧
    List.Sorted prioDescP (slowList rows) := by
  have hffilt : (fastCohort rows).filter (fun r => !r.finalTurnover.isNan) = fastCohort rows := by
    apply List.filter_eq_self.mpr
    intro r hr
    rw [fastCohort_not_nan rows r hr]
    rfl
  have hsfilt : (slowCohort rows).filter (fun r => !r.finalTurnover.isNan) = slowCohort rows := by
    apply List.filter_eq_self.mpr
    intro r hr
    rw [slowCohort_not_nan rows r hr]
    rfl
  have hLf : nlargestTurn 10 (fastCohort rows) =
      (List.insertionSort turnDescP (fastCohort rows)).take 10 := by
    unfold nlargestTurn
    rw [hffilt]
  have hLs : nsmallestTurn 10 (slowCohort rows) =
      (List.insertionSort turnAscP (slowCohort rows)).take 10 := by
    unfold nsmallestTurn
    rw [hsfilt]
  have hLflen : (nlargestTurn 10 (fastCohort rows)).length = min 10 (fastCohort rows).length := by
    rw [hLf, List.length_take, List.length_insertionSort]
  have hLslen : (nsmallestTurn 10 (slowCohort rows)).length = min 10 (slowCohort rows).length := by
    rw [hLs, List.length_take, List.length_insertionSort]
  have hpermf : List.Perm (fastList rows) (nlargestTurn 10 (fastCohort rows)) := by
    show List.Perm (nlargestPrio 10 (nlargestTurn 10 (fastCohort rows))) _
    unfold nlargestPrio
    rw [List.take_of_length_le (by
      rw [List.length_insertionSort, hLflen]
      exact min_le_left _ _)]
    exact List.perm_insertionSort _ _
  have hperms : List.Perm (slowList rows) (nsmallestTurn 10 (slowCohort rows)) := by
    show List.Perm (nlargestPrio 10 (nsmallestTurn 10 (slowCohort rows))) _
    unfold nlargestPrio
    rw [List.take_of_length_le (by
      rw [List.length_insertionSort, hLslen]
      exact min_le_left _ _)]
    exact List.perm_insertionSort _ _
  have hmemf : ∀ r ∈ fastList rows, r ∈ fastCohort rows := by
    intro r hr
    have h1 := hpermf.subset hr
    rw [hLf] at h1
    exact (List.mem_insertionSort _).mp (List.mem_of_mem_take h1)
  have hmems : ∀ r ∈ slowList rows, r ∈ slowCohort rows := by
    intro r hr
    have h1 := hperms.subset hr
    rw [hLs] at h1
    exact (List.mem_insertionSort _).mp (List.mem_of_mem_take h1)
  refine ⟨hmemf, ?_, ?_, ?_, hmems, ?_, ?_, ?_⟩
  · rw [hpermf.length_eq, hLflen]
  · intro r hrC hrnot s hs
    have hrS : r ∈ List.insertionSort turnDescP (fastCohort rows) :=
      (List.mem_insertionSort _).mpr hrC
    have hrnotL : r ∉ nlargestTurn 10 (fastCohort rows) :=
      fun hx => hrnot (hpermf.mem_iff.mpr hx)
    have hrdrop : r ∈ (List.insertionSort turnDescP (fastCohort rows)).drop 10 := by
      have hsplit := List.take_append_drop 10 (List.insertionSort turnDescP (fastCohort rows))
      have hm : r ∈ (List.insertionSort turnDescP (fastCohort rows)).take 10 ++
          (List.insertionSort turnDescP (fastCohort rows)).drop 10 := by
        rw [hsplit]
        exact hrS
      rcases List.mem_append.mp hm with h1 | h2
      · exact absurd (show r ∈ nlargestTurn 10 (fastCohort rows) by rw [hLf]; exact h1) hrnotL
      · exact h2
    have hsL : s ∈ (List.insertionSort turnDescP (fastCohort rows)).take 10 := by
      rw [← hLf]
      exact hpermf.subset hs
    have hrel : turnDescP s r :=
      (List.sorted_insertionSort turnDescP (fastCohort rows)).rel_of_mem_take_of_mem_drop hsL hrdrop
    exact leb_of_nfDescB s.finalTurnover r.finalTurnover
      (fastCohort_not_nan rows s (hmemf s hs)) (fastCohort_not_nan rows r hrC) hrel
  · show List.Sorted prioDescP
      ((List.insertionSort prioDescP (nlargestTurn 10 (fastCohort rows))).take 10)
    exact (List.sorted_insertionSort prioDescP _).sublist (List.take_sublist _ _)
  · rw [hperms.length_eq, hLslen]
  · intro r hrC hrnot s hs
    have hrS : r ∈ List.insertionSort turnAscP (slowCohort rows) :=
      (List.mem_insertionSort _).mpr hrC
    have hrnotL : r ∉ nsmallestTurn 10 (slowCohort rows) :=
      fun hx => hrnot (hperms.mem_iff.mpr hx)
    have hrdrop : r ∈ (List.insertionSort turnAscP (slowCohort rows)).drop 10 := by
      have hsplit := List.take_append_drop 10 (List.insertionSort turnAscP (slowCohort rows))
      have hm : r ∈ (List.insertionSort turnAscP (slowCohort rows)).take 10 ++
          (List.insertionSort turnAscP (slowCohort rows)).drop 10 := by
        rw [hsplit]
        exact hrS
      rcases List.mem_append.mp hm with h1 | h2
      · exact absurd (show r ∈ nsmallestTurn 10 (slowCohort rows) by rw [hLs]; exact h1) hrnotL
      · exact h2
    have hsL : s ∈ (List.insertionSort turnAscP (slowCohort rows)).take 10 := by
      rw [← hLs]
      exact hperms.subset hs
    have hrel : turnAscP s r :=
      (List.sorted_insertionSort turnAscP (slowCohort rows)).rel_of_mem_take_of_mem_drop hsL hrdrop
    exact leb_of_nfAscB s.finalTurnover r.finalTurnover
      (slowCohort_not_nan rows s (hmems s hs)) (slowCohort_not_nan rows r hrC) hrel
  · show List.Sorted prioDescP
      ((List.insertionSort prioDescP (nsmallestTurn 10 (slowCohort rows))).take 10)
    exact (List.sorted_insertionSort prioDescP _).sublist (List.take_sublist _ _)

/-- C8 counterexample engine map. -/
def m8 : EMap := { reorder := true, price := true }

/-- C8 counterexample input: eleven rows with equal turnover 4 (stock
is three times sales) and strictly increasing priority scores, so the
whole table is the fast cohort and the top-10-by-priority set differs
from the code's top-10-by-turnover set. -/
def rows8 : List PRow :=
  (List.range 11).map (fun k =>
    { name := toString (k+1), category := "G", stock := 3 * (((k+1 : ℕ)) : ℚ),
      sales := (((k+1 : ℕ)) : ℚ), reorder := 0, price := 1 })

/-- C8 counterexample augmented table. -/
def out8 : List ARow := (prepareData m8 false rows8).toOption.getD []

unseal Rat.add Rat.mul Rat.inv Rat.sub in
/-- C8 counterexample: the eleventh row has the highest priority score,
belongs to the fast cohort and to the claim's top-10-by-priority list,
yet the code's reported fast movers exclude it (the code keeps the
first ten rows by turnover, ties first-come), refuting the claim that
the fast list is the cohort's top 10 by priority score. -/
theorem claim_C8_counterexample :
    (out8.getD 10 aDflt) ∈ fastCohort out8 ∧
    (out8.getD 10 aDflt) ∈ specFastClaim out8 ∧
    (out8.getD 10 aDflt) ∉ fastList out8 := by decide

/-! ## Aggregator: product filtering
(calculations.py, InventoryCalculations.filter_products) -/

/-- Case-insensitive containment of the stripped search text in the
product name (str.contains with case false and na false; the model
covers literal search text — the source reads the pattern as a regular
expression, which for literal text is substring containment). -/
def nameMatches (search : String) (nm : String) : Bool :=
  occursIn (lowerChars (trimChars search.toList)) (lowerChars nm.toList)

/-- The legacy status label mapping of filter_products. -/
def legacyStatus (s : String) : Option String :=
  if s = "Critical" then some ("CRITICAL")
  else if s = "Low Stock" then some ("LOW")
  else if s = "Healthy" then some ("HEALTHY")
  else if s = "Excess" then some ("EXCESS")
  else none

/-- The category criterion: None, the empty string (falsy), All
Categories and All disable it. -/
def catFilter (rows : List ARow) : Option String → List ARow
  | none => rows
  | some c =>
      if c ≠ "" ∧ c ≠ "All Categories" ∧ c ≠ "All" then
        rows.filter (fun r => r.category = c)
      else rows

/-- The status criterion: the label is checked against the status
values present in the already category-filtered frame; failing that,
the legacy mapping; an unrecognized label applies no filter. -/
def statusFilter (r1 : List ARow) : Option String → List ARow
  | none => r1
  | some s =>
      if s ≠ "" ∧ s ≠ "All" then
        if (r1.map ARow.stockStatus).contains s then
          r1.filter (fun r => r.stockStatus = s)
        else
          match legacyStatus s with
          | some ms => r1.filter (fun r => r.stockStatus = ms)
          | none => r1
      else r1

/-- The ABC class criterion. -/
def abcFilter (r2 : List ARow) : Option String → List ARow
  | none => r2
  | some a =>
      if a ≠ "" ∧ a ≠ "All" then r2.filter (fun r => r.abcClass = a) else r2

/-- The search criterion: applied when the search text and its strip
are nonempty. -/
def searchFilter (r3 : List ARow) : Option String → List ARow
  | none => r3
  | some s =>
      if s ≠ "" ∧ trimChars s.toList ≠ [] then
        r3.filter (fun r => nameMatches s r.name)
      else r3

/-- filter_products: the conjunctive criteria in source order, then the
rows sorted by descending priority score (Python's stable sort).  The
per-row output projection is omitted: it drops no row and the source
sorts by the one-decimal rounding of the score, which is monotone, so
only the relative order of rounding ties can differ — nothing the
claims at issue depend on. -/
def filterProducts (rows : List ARow)
    (category status search abcClass : Option String) : List ARow :=
  List.insertionSort prioDescP
    (searchFilter (abcFilter (statusFilter (catFilter rows category) status) abcClass) search)

/-- C10. A status argument that is not All, not a status value present
in the table, and not a legacy label is silently ignored: the call
returns exactly what the same call without a status criterion returns
(the category-filtered frame's status values are a subset of the
table's, so the presence test fails, and the legacy mapping yields
nothing). -/
theorem claim_C10_unknown_status_ignored (rows : List ARow)
    (category search abcClass : Option String) (s : String)
    (hAll : s ≠ "All")
    (hpresent : s ∉ rows.map ARow.stockStatus)
    (hlegacy : s ∉ (["Critical", "Low Stock", "Healthy", "Excess"] : List String)) :
    filterProducts rows category (some s) search abcClass =
      filterProducts rows category none search abcClass := by
  unfold filterProducts
  have hstat : statusFilter (catFilter rows category) (some s) =
      statusFilter (catFilter rows category) none := by
    show (if s ≠ "" ∧ s ≠ "All" then _ else _) = _
    by_cases hne : s ≠ "" ∧ s ≠ "All"
    · rw [if_pos hne]
      have hsub : catFilter rows category ⊆ rows := by
        cases category with
        | none => exact fun x hx => hx
        | some c =>
            show (if c ≠ "" ∧ c ≠ "All Categories" ∧ c ≠ "All" then
              rows.filter (fun r => r.category = c) else rows) ⊆ rows
            by_cases hc : c ≠ "" ∧ c ≠ "All Categories" ∧ c ≠ "All"
            · rw [if_pos hc]
              exact fun x hx => (List.mem_filter.mp hx).1
            · rw [if_neg hc]
              exact fun x hx => hx
      have hcontains : ((catFilter rows category).map ARow.stockStatus).contains s = false := by
        cases hcs : ((catFilter rows category).map ARow.stockStatus).contains s with
        | false => rfl
        | true =>
            exact absurd
              (List.map_subset ARow.stockStatus hsub (List.mem_of_elem_eq_true hcs))
              hpresent
      rw [hcontains]
      have hleg : legacyStatus s = none := by
        unfold legacyStatus
        have h1 : s ≠ "Critical" := by intro he; exact hlegacy (by rw [he]; simp)
        have h2 : s ≠ "Low Stock" := by intro he; exact hlegacy (by rw [he]; simp)
        have h3 : s ≠ "Healthy" := by intro he; exact hlegacy (by rw [he]; simp)
        have h4 : s ≠ "Excess" := by intro he; exact hlegacy (by rw [he]; simp)
        rw [if_neg h1, if_neg h2, if_neg h3, if_neg h4]
      rw [hleg]
      rfl
    · rw [if_neg hne]
      rfl
  rw [hstat]

unseal Rat.add Rat.mul Rat.inv Rat.sub in
/-- C10 witness: on the concrete one-row table, whose only status is
CRITICAL, filtering by the unrecognized status NORMAL returns the same
rows as not filtering by status at all. -/
theorem claim_C10_witness :
    filterProducts out5 none (some ("NORMAL")) none none =
      filterProducts out5 none none none none :=
  claim_C10_unknown_status_ignored out5 none none none "NORMAL" (by decide)
    (by decide) (by decide)

end PIAS
